import Mathlib

/-!
# aurorapa: the `status` command's job enumerator and diff classifier

A shallow embedding of `cmd/status.go`.

* Go strings are modelled as `List Char`.  Every operation of the program
  that inspects a string (`strings.HasPrefix`, the regular expression
  `\[([^\[\]]*)\]`, `strings.FieldsFunc` with the separators `"[], "`) only
  discriminates ASCII characters, so the byte view and the rune view of a Go
  string agree on them.
* `bufio.Scanner` hands the loop body one line at a time; the classifier is
  modelled on the sequence of lines the scanner yields.
* The external `aurora` process, the environment and the console output are
  outside the model.
-/

namespace Aurorapa

/-- Go `string`, as a list of characters. -/
abbrev Str := List Char

/-- The struct `JobUpdate` of `cmd/status.go`. -/
structure JobUpdate where
  JobIndex : Int
  Job : Str
  Dirty : Bool
  Diff : List Str
  FoundHeader : Bool
  Update : Str
  Add : Str
  Remove : Str
deriving DecidableEq

/-- The function `NewJobUpdate`: a zero-valued struct with `Job` and `JobIndex`
set, and `Dirty`, `FoundHeader` set to false. -/
def NewJobUpdate (job : Str) (jobindex : Int) : JobUpdate :=
  { JobIndex := jobindex
    Job := job
    Dirty := false
    Diff := []
    FoundHeader := false
    Update := []
    Add := []
    Remove := [] }

/-- Go `strings.HasPrefix(s, p)`: `len(s) >= len(p) && s[:len(p)] == p`. -/
def HasPrefix (s p : Str) : Bool :=
  decide (p.length ≤ s.length) && decide (s.take p.length = p)

/-- The literal `"This job update will:"` (line 147). -/
def headerLit : Str := "This job update will:".toList

/-- The literal `"remove instances:"` (line 151). -/
def removeLit : Str := "remove instances:".toList

/-- The literal `"add instances:"` (line 155). -/
def addLit : Str := "add instances:".toList

/-- The literal `"update instances:"` (line 159). -/
def updateLit : Str := "update instances:".toList

/-- The character class `[^\[\]]` of the regular expression. -/
def nonBracket (c : Char) : Bool := c != '[' && c != ']'

/-- The regular expression `\[([^\[\]]*)\]` anchored at the start of `s`: a
`[`, the greedy run of non-bracket characters, then a `]`.  The starred class
cannot consume a `]`, so the only way to match is after the maximal run. -/
def matchHere : Str → Option Str
  | [] => none
  | c :: rest =>
    if c = '[' then
      match rest.dropWhile nonBracket with
      | [] => none
      | d :: _ => if d = ']' then some (c :: (rest.takeWhile nonBracket ++ [d])) else none
    else none

/-- Go `re.FindString(s)` for `re = \[([^\[\]]*)\]`: the text of the leftmost
match, or the empty string when there is none. -/
def FindString : Str → Str
  | [] => []
  | c :: cs =>
    match matchHere (c :: cs) with
    | some m => m
    | none => FindString cs

/-- The closure `f` of line 121: `strings.ContainsRune("[], ", r)`. -/
def jobseparators (r : Char) : Bool :=
  r == '[' || r == ']' || r == ',' || r == ' '

/-- The loop of Go `strings.FieldsFunc`: `start` holds the text of the span
that is open (the Go code holds its start index, negative when no span is
open), `spans` the closed spans so far. -/
def fieldsLoop (f : Char → Bool) : Str → Option Str → List Str → List Str
  | [], none, spans => spans
  | [], some cur, spans => spans ++ [cur]
  | r :: rest, start, spans =>
    if f r then
      match start with
      | some cur => fieldsLoop f rest none (spans ++ [cur])
      | none => fieldsLoop f rest none spans
    else
      match start with
      | some cur => fieldsLoop f rest (some (cur ++ [r])) spans
      | none => fieldsLoop f rest (some [r]) spans

/-- Go `strings.FieldsFunc(s, f)`. -/
def FieldsFunc (s : Str) (f : Char → Bool) : List Str :=
  fieldsLoop f s none []

/-- Lines 116-125 of `statusCmdF`: the job list from the output of
`aurora config list`. -/
def jobs (str1 : Str) : List Str :=
  FieldsFunc (FindString str1) jobseparators

/-- The body of the scanner loop of `statusCmdF` (lines 147-165) on one line. -/
def lineStep (j : JobUpdate) (text : Str) : JobUpdate :=
  let j := if HasPrefix text headerLit then { j with FoundHeader := true } else j
  if HasPrefix text removeLit then
    { j with Dirty := true, Remove := FindString text }
  else if HasPrefix text addLit then
    { j with Dirty := true, Add := FindString text }
  else if HasPrefix text updateLit then
    { j with Update := FindString text }
  else if !j.FoundHeader then
    { j with Diff := j.Diff ++ [text], Dirty := true }
  else j

/-- The scanner loop of `statusCmdF` (lines 145-167) from a given record. -/
def scanFrom (j : JobUpdate) (lines : List Str) : JobUpdate :=
  lines.foldl lineStep j

/-- Lines 131-167 of `statusCmdF` for one job: `NewJobUpdate`, then the scanner
loop over the lines of the job's diff. -/
def classify (job : Str) (jobindex : Int) (lines : List Str) : JobUpdate :=
  scanFrom (NewJobUpdate job jobindex) lines

/-! ## Definitions used to state the claims -/

/-- Whether a line carries one of the three range markers. -/
def hasRangeMarker (text : Str) : Bool :=
  HasPrefix text removeLit || HasPrefix text addLit || HasPrefix text updateLit

/-- The lines before the first line that begins with the header literal. -/
def preamble (lines : List Str) : List Str :=
  lines.takeWhile (fun l => !HasPrefix l headerLit)

/-- The lines of the preamble that carry none of the three range markers. -/
def captured (lines : List Str) : List Str :=
  (preamble lines).filter (fun l => !hasRangeMarker l)

/-- The line that decides a range field: the last one carrying the marker. -/
def lastWith (p : Str) (lines : List Str) : Option Str :=
  (lines.filter (fun l => HasPrefix l p)).getLast?

/-- The range a deciding line gives: its `FindString`; without a deciding
line the field keeps the value `prev` it had. -/
def rangeOf (prev : Str) : Option Str → Str
  | none => prev
  | some l => FindString l

/-- A bracket group: a `[`, then characters other than `[` and `]`, then a `]`. -/
def IsGroup (g : Str) : Prop :=
  ∃ body : Str, g = '[' :: (body ++ [']']) ∧ ∀ c ∈ body, c ≠ '[' ∧ c ≠ ']'

/-- The bracket group `g` is the substring of `line` that starts at offset `n`. -/
def GroupAt (line : Str) (n : Nat) (g : Str) : Prop :=
  IsGroup g ∧ g <+: line.drop n

/-- The bracket group `g` starts at offset `n` of `line` and no bracket group
of `line` starts further left. -/
def LeftmostGroupAt (line : Str) (n : Nat) (g : Str) : Prop :=
  GroupAt line n g ∧ ∀ m g', GroupAt line m g' → n ≤ m

/-- The bracket group `g` is the leftmost one of `line`. -/
def LeftmostGroup (line g : Str) : Prop := ∃ n, LeftmostGroupAt line n g

/-- The line has a bracket group somewhere. -/
def HasGroup (line : Str) : Prop := ∃ n g, GroupAt line n g

/-- The enumerator in the words of the specification: split on the separator
characters, then discard the empty tokens. -/
def fieldsRef (f : Char → Bool) (s : Str) : List Str :=
  (s.splitOnP f).filter (fun t => !t.isEmpty)

/-- The implication of the data model: a non-empty `Add`, `Remove` or `Diff`
comes with `Dirty`. -/
def DirtyInv (j : JobUpdate) : Prop :=
  (j.Add ≠ [] ∨ j.Remove ≠ [] ∨ j.Diff ≠ []) → j.Dirty = true

/-- What a range field holds after a line that carries its marker: the
leftmost bracket group of the line, or the empty string when the line has no
bracket group. -/
def RangeSpec (line r : Str) : Prop :=
  LeftmostGroup line r ∨ (r = [] ∧ ¬ HasGroup line)

/-- The field `field` is decided by the last line of `lines` that begins with
`marker`, and is empty when no line does. -/
def DecidedByLast (marker : Str) (lines : List Str) (field : Str) : Prop :=
  (∀ pre l post, lines = pre ++ l :: post → HasPrefix l marker = true →
      (∀ x ∈ post, HasPrefix x marker = false) → RangeSpec l field) ∧
    ((∀ x ∈ lines, HasPrefix x marker = false) → field = [])

/-- The three-line summary of the specification's example, with the ranges
`[a]` and `[r]`. -/
def summaryLines (a r : Str) : List Str :=
  [ "This job update will:".toList,
    "add instances: ".toList ++ '[' :: (a ++ [']']),
    "remove instances: ".toList ++ '[' :: (r ++ [']']) ]

/-! ## Prefix tests -/

theorem HasPrefix_iff (s p : Str) : HasPrefix s p = true ↔ p <+: s := by
  unfold HasPrefix
  rw [List.prefix_iff_eq_take]
  constructor
  · intro h
    simp only [Bool.and_eq_true, decide_eq_true_eq] at h
    exact h.2.symm
  · intro h
    simp only [Bool.and_eq_true, decide_eq_true_eq]
    refine ⟨?_, h.symm⟩
    have := congrArg List.length h
    simp only [List.length_take] at this
    omega

theorem HasPrefix_append (p t : Str) : HasPrefix (p ++ t) p = true :=
  (HasPrefix_iff _ _).2 (List.prefix_append p t)

theorem HasPrefix_head {s p : Str} {c : Char} (h : HasPrefix s (c :: p) = true) :
    s.head? = some c := by
  obtain ⟨t, rfl⟩ := (HasPrefix_iff _ _).1 h
  rfl

theorem HasPrefix_head_ne {s p q : Str} {c d : Char} (hcd : c ≠ d)
    (h : HasPrefix s (c :: p) = true) : HasPrefix s (d :: q) = false := by
  cases hq : HasPrefix s (d :: q) with
  | false => rfl
  | true =>
    have h1 := HasPrefix_head h
    have h2 := HasPrefix_head hq
    rw [h1] at h2
    exact absurd (Option.some.inj h2) hcd

theorem header_excl {s : Str} (h : HasPrefix s headerLit = true) :
    HasPrefix s removeLit = false ∧ HasPrefix s addLit = false ∧
      HasPrefix s updateLit = false :=
  ⟨HasPrefix_head_ne (by decide) h, HasPrefix_head_ne (by decide) h,
    HasPrefix_head_ne (by decide) h⟩

theorem remove_excl {s : Str} (h : HasPrefix s removeLit = true) :
    HasPrefix s headerLit = false ∧ HasPrefix s addLit = false ∧
      HasPrefix s updateLit = false :=
  ⟨HasPrefix_head_ne (by decide) h, HasPrefix_head_ne (by decide) h,
    HasPrefix_head_ne (by decide) h⟩

theorem add_excl {s : Str} (h : HasPrefix s addLit = true) :
    HasPrefix s headerLit = false ∧ HasPrefix s removeLit = false ∧
      HasPrefix s updateLit = false :=
  ⟨HasPrefix_head_ne (by decide) h, HasPrefix_head_ne (by decide) h,
    HasPrefix_head_ne (by decide) h⟩

theorem update_excl {s : Str} (h : HasPrefix s updateLit = true) :
    HasPrefix s headerLit = false ∧ HasPrefix s removeLit = false ∧
      HasPrefix s addLit = false :=
  ⟨HasPrefix_head_ne (by decide) h, HasPrefix_head_ne (by decide) h,
    HasPrefix_head_ne (by decide) h⟩

/-! ## One line of the scanner loop, field by field -/

theorem lineStep_remove (j : JobUpdate) {text : Str} (h : HasPrefix text removeLit = true) :
    lineStep j text = { j with Dirty := true, Remove := FindString text } := by
  obtain ⟨h1, -, -⟩ := remove_excl h
  simp [lineStep, h, h1]

theorem lineStep_add (j : JobUpdate) {text : Str} (h : HasPrefix text addLit = true) :
    lineStep j text = { j with Dirty := true, Add := FindString text } := by
  obtain ⟨h1, h2, -⟩ := add_excl h
  simp [lineStep, h, h1, h2]

theorem lineStep_update (j : JobUpdate) {text : Str} (h : HasPrefix text updateLit = true) :
    lineStep j text = { j with Update := FindString text } := by
  obtain ⟨h1, h2, h3⟩ := update_excl h
  simp [lineStep, h, h1, h2, h3]

theorem lineStep_header (j : JobUpdate) {text : Str} (h : HasPrefix text headerLit = true) :
    lineStep j text = { j with FoundHeader := true } := by
  obtain ⟨h1, h2, h3⟩ := header_excl h
  simp [lineStep, h, h1, h2, h3]

theorem lineStep_other_before (j : JobUpdate) {text : Str}
    (hh : HasPrefix text headerLit = false) (hr : hasRangeMarker text = false)
    (hj : j.FoundHeader = false) :
    lineStep j text = { j with Diff := j.Diff ++ [text], Dirty := true } := by
  simp only [hasRangeMarker, Bool.or_eq_false_iff] at hr
  simp [lineStep, hh, hr.1.1, hr.1.2, hr.2, hj]

theorem lineStep_other_after (j : JobUpdate) {text : Str}
    (hr : hasRangeMarker text = false) (hj : j.FoundHeader = true) :
    lineStep j text = j := by
  simp only [hasRangeMarker, Bool.or_eq_false_iff] at hr
  cases hh : HasPrefix text headerLit <;> simp [lineStep, hh, hr.1.1, hr.1.2, hr.2, hj]
  cases j; simp_all

/-- The five kinds of line the loop body tells apart. -/
theorem line_cases (text : Str) :
    HasPrefix text removeLit = true ∨ HasPrefix text addLit = true ∨
      HasPrefix text updateLit = true ∨ HasPrefix text headerLit = true ∨
      (HasPrefix text headerLit = false ∧ hasRangeMarker text = false) := by
  unfold hasRangeMarker
  cases HasPrefix text removeLit <;> cases HasPrefix text addLit <;>
    cases HasPrefix text updateLit <;> cases HasPrefix text headerLit <;> simp

/-! ## The whole loop, field by field -/

theorem scanFrom_nil (j : JobUpdate) : scanFrom j [] = j := rfl

theorem scanFrom_cons (j : JobUpdate) (l : Str) (ls : List Str) :
    scanFrom j (l :: ls) = scanFrom (lineStep j l) ls := rfl

theorem scanFrom_append (j : JobUpdate) (xs ys : List Str) :
    scanFrom j (xs ++ ys) = scanFrom (scanFrom j xs) ys := by
  simp [scanFrom, List.foldl_append]

theorem hasRangeMarker_of_remove {l : Str} (h : HasPrefix l removeLit = true) :
    hasRangeMarker l = true := by simp [hasRangeMarker, h]

theorem hasRangeMarker_of_add {l : Str} (h : HasPrefix l addLit = true) :
    hasRangeMarker l = true := by simp [hasRangeMarker, h]

theorem hasRangeMarker_of_update {l : Str} (h : HasPrefix l updateLit = true) :
    hasRangeMarker l = true := by simp [hasRangeMarker, h]

theorem hasRangeMarker_of_header {l : Str} (h : HasPrefix l headerLit = true) :
    hasRangeMarker l = false := by
  obtain ⟨h1, h2, h3⟩ := header_excl h
  simp [hasRangeMarker, h1, h2, h3]

theorem header_of_hasRangeMarker {l : Str} (h : hasRangeMarker l = true) :
    HasPrefix l headerLit = false := by
  cases hh : HasPrefix l headerLit with
  | false => rfl
  | true => rw [hasRangeMarker_of_header hh] at h; exact absurd h (by decide)

theorem preamble_cons_header {l : Str} (ls : List Str) (h : HasPrefix l headerLit = true) :
    preamble (l :: ls) = [] := by
  simp [preamble, List.takeWhile_cons, h]

theorem preamble_cons_other {l : Str} (ls : List Str) (h : HasPrefix l headerLit = false) :
    preamble (l :: ls) = l :: preamble ls := by
  simp [preamble, List.takeWhile_cons, h]

theorem captured_cons_header {l : Str} (ls : List Str) (h : HasPrefix l headerLit = true) :
    captured (l :: ls) = [] := by
  simp [captured, preamble_cons_header ls h]

theorem captured_cons_marker {l : Str} (ls : List Str) (h : hasRangeMarker l = true) :
    captured (l :: ls) = captured ls := by
  simp [captured, preamble_cons_other ls (header_of_hasRangeMarker h), h]

theorem captured_cons_other {l : Str} (ls : List Str) (hh : HasPrefix l headerLit = false)
    (h : hasRangeMarker l = false) : captured (l :: ls) = l :: captured ls := by
  simp [captured, preamble_cons_other ls hh, h]

theorem scanFrom_FoundHeader (j : JobUpdate) (lines : List Str) :
    (scanFrom j lines).FoundHeader =
      (j.FoundHeader || lines.any (fun l => HasPrefix l headerLit)) := by
  induction lines generalizing j with
  | nil => simp [scanFrom_nil]
  | cons l ls ih =>
    rw [scanFrom_cons, ih]
    rcases line_cases l with h | h | h | h | ⟨hh, hr⟩
    · simp [lineStep_remove j h, (remove_excl h).1]
    · simp [lineStep_add j h, (add_excl h).1]
    · simp [lineStep_update j h, (update_excl h).1]
    · simp [lineStep_header j h, h]
    · cases hj : j.FoundHeader
      · simp [lineStep_other_before j hh hr hj, hh, hj]
      · simp [lineStep_other_after j hr hj, hh, hj]

theorem scanFrom_Diff (j : JobUpdate) (lines : List Str) :
    (scanFrom j lines).Diff =
      j.Diff ++ (if j.FoundHeader = true then [] else captured lines) := by
  induction lines generalizing j with
  | nil => simp [scanFrom_nil, captured, preamble]
  | cons l ls ih =>
    rw [scanFrom_cons, ih]
    rcases line_cases l with h | h | h | h | ⟨hh, hr⟩
    · simp [lineStep_remove j h, captured_cons_marker ls (hasRangeMarker_of_remove h)]
    · simp [lineStep_add j h, captured_cons_marker ls (hasRangeMarker_of_add h)]
    · simp [lineStep_update j h, captured_cons_marker ls (hasRangeMarker_of_update h)]
    · simp [lineStep_header j h, captured_cons_header ls h]
    · cases hj : j.FoundHeader
      · simp [lineStep_other_before j hh hr hj, captured_cons_other ls hh hr, hj]
      · simp [lineStep_other_after j hr hj, hj]

theorem scanFrom_Dirty (j : JobUpdate) (lines : List Str) :
    (scanFrom j lines).Dirty =
      (j.Dirty || lines.any (fun l => HasPrefix l removeLit || HasPrefix l addLit)
        || (!j.FoundHeader && !(captured lines).isEmpty)) := by
  induction lines generalizing j with
  | nil => simp [scanFrom_nil, captured, preamble]
  | cons l ls ih =>
    rw [scanFrom_cons, ih]
    rcases line_cases l with h | h | h | h | ⟨hh, hr⟩
    · simp [lineStep_remove j h, captured_cons_marker ls (hasRangeMarker_of_remove h), h]
    · simp [lineStep_add j h, captured_cons_marker ls (hasRangeMarker_of_add h), h]
    · simp [lineStep_update j h, captured_cons_marker ls (hasRangeMarker_of_update h),
        (update_excl h).2.1, (update_excl h).2.2]
    · simp [lineStep_header j h, captured_cons_header ls h, (header_excl h).1,
        (header_excl h).2.1]
    · have hr2 := hr
      simp only [hasRangeMarker, Bool.or_eq_false_iff] at hr2
      cases hj : j.FoundHeader
      · simp [lineStep_other_before j hh hr hj, captured_cons_other ls hh hr, hj]
      · simp [lineStep_other_after j hr hj, hj, hr2.1.1, hr2.1.2]

theorem lastWith_cons_neg {p l : Str} (ls : List Str) (h : HasPrefix l p = false) :
    lastWith p (l :: ls) = lastWith p ls := by
  simp [lastWith, List.filter_cons, h]

theorem rangeOf_lastWith_cons_pos {p l : Str} (ls : List Str) (prev : Str)
    (h : HasPrefix l p = true) :
    rangeOf prev (lastWith p (l :: ls)) = rangeOf (FindString l) (lastWith p ls) := by
  simp only [lastWith, List.filter_cons, h, if_true]
  cases hf : List.filter (fun l => HasPrefix l p) ls with
  | nil => simp [rangeOf]
  | cons x xs =>
    rw [List.getLast?_cons_cons, List.getLast?_eq_getLast _ (List.cons_ne_nil x xs)]
    rfl

theorem scanFrom_Remove (j : JobUpdate) (lines : List Str) :
    (scanFrom j lines).Remove = rangeOf j.Remove (lastWith removeLit lines) := by
  induction lines generalizing j with
  | nil => simp [scanFrom_nil, lastWith, rangeOf]
  | cons l ls ih =>
    rw [scanFrom_cons, ih]
    rcases line_cases l with h | h | h | h | ⟨hh, hr⟩
    · simp [lineStep_remove j h, rangeOf_lastWith_cons_pos ls j.Remove h]
    · simp [lineStep_add j h, lastWith_cons_neg ls (add_excl h).2.1]
    · simp [lineStep_update j h, lastWith_cons_neg ls (update_excl h).2.1]
    · simp [lineStep_header j h, lastWith_cons_neg ls (header_excl h).1]
    · have hr2 := hr
      simp only [hasRangeMarker, Bool.or_eq_false_iff] at hr2
      cases hj : j.FoundHeader
      · simp [lineStep_other_before j hh hr hj, lastWith_cons_neg ls hr2.1.1]
      · simp [lineStep_other_after j hr hj, lastWith_cons_neg ls hr2.1.1]

theorem scanFrom_Add (j : JobUpdate) (lines : List Str) :
    (scanFrom j lines).Add = rangeOf j.Add (lastWith addLit lines) := by
  induction lines generalizing j with
  | nil => simp [scanFrom_nil, lastWith, rangeOf]
  | cons l ls ih =>
    rw [scanFrom_cons, ih]
    rcases line_cases l with h | h | h | h | ⟨hh, hr⟩
    · simp [lineStep_remove j h, lastWith_cons_neg ls (remove_excl h).2.1]
    · simp [lineStep_add j h, rangeOf_lastWith_cons_pos ls j.Add h]
    · simp [lineStep_update j h, lastWith_cons_neg ls (update_excl h).2.2]
    · simp [lineStep_header j h, lastWith_cons_neg ls (header_excl h).2.1]
    · have hr2 := hr
      simp only [hasRangeMarker, Bool.or_eq_false_iff] at hr2
      cases hj : j.FoundHeader
      · simp [lineStep_other_before j hh hr hj, lastWith_cons_neg ls hr2.1.2]
      · simp [lineStep_other_after j hr hj, lastWith_cons_neg ls hr2.1.2]

theorem scanFrom_Update (j : JobUpdate) (lines : List Str) :
    (scanFrom j lines).Update = rangeOf j.Update (lastWith updateLit lines) := by
  induction lines generalizing j with
  | nil => simp [scanFrom_nil, lastWith, rangeOf]
  | cons l ls ih =>
    rw [scanFrom_cons, ih]
    rcases line_cases l with h | h | h | h | ⟨hh, hr⟩
    · simp [lineStep_remove j h, lastWith_cons_neg ls (remove_excl h).2.2]
    · simp [lineStep_add j h, lastWith_cons_neg ls (add_excl h).2.2]
    · simp [lineStep_update j h, rangeOf_lastWith_cons_pos ls j.Update h]
    · simp [lineStep_header j h, lastWith_cons_neg ls (header_excl h).2.2]
    · have hr2 := hr
      simp only [hasRangeMarker, Bool.or_eq_false_iff] at hr2
      cases hj : j.FoundHeader
      · simp [lineStep_other_before j hh hr hj, lastWith_cons_neg ls hr2.2]
      · simp [lineStep_other_after j hr hj, lastWith_cons_neg ls hr2.2]

/-! ## The regular expression -/

theorem nonBracket_iff (c : Char) : nonBracket c = true ↔ c ≠ '[' ∧ c ≠ ']' := by
  simp [nonBracket]

theorem IsGroup_ne_nil {g : Str} (h : IsGroup g) : g ≠ [] := by
  obtain ⟨body, rfl, -⟩ := h
  exact List.cons_ne_nil _ _

theorem takeWhile_run (p : Char → Bool) (body : Str) (x : Char) (t : Str)
    (hb : ∀ c ∈ body, p c = true) (hx : p x = false) :
    (body ++ x :: t).takeWhile p = body ∧ (body ++ x :: t).dropWhile p = x :: t := by
  induction body with
  | nil => simp [List.takeWhile_cons, List.dropWhile_cons, hx]
  | cons b bs ih =>
    have hb1 : p b = true := hb b (List.mem_cons_self _ _)
    have ih2 := ih (fun c hc => hb c (List.mem_cons_of_mem _ hc))
    simp [List.takeWhile_cons, List.dropWhile_cons, hb1, ih2.1, ih2.2]

theorem matchHere_some_iff (s m : Str) :
    matchHere s = some m ↔ IsGroup m ∧ m <+: s := by
  constructor
  · intro h
    cases s with
    | nil => simp [matchHere] at h
    | cons c rest =>
      simp only [matchHere] at h
      split_ifs at h with hc
      subst hc
      cases hd : rest.dropWhile nonBracket with
      | nil => simp [hd] at h
      | cons d tl =>
        simp only [hd] at h
        split_ifs at h with hdc
        subst hdc
        have hm : m = '[' :: (rest.takeWhile nonBracket ++ [']']) := (Option.some.inj h).symm
        subst hm
        refine ⟨⟨rest.takeWhile nonBracket, rfl, ?_⟩, ?_⟩
        · intro c hc
          exact (nonBracket_iff c).1 (List.mem_takeWhile_imp hc)
        · refine ⟨tl, ?_⟩
          have := List.takeWhile_append_dropWhile nonBracket rest
          rw [hd] at this
          simp [this]
  · rintro ⟨⟨body, rfl, hb⟩, ⟨t, rfl⟩⟩
    have hrun := takeWhile_run nonBracket body ']' t
      (fun c hc => (nonBracket_iff c).2 (hb c hc)) (by decide)
    simp [matchHere, hrun.1, hrun.2]

theorem matchHere_none_iff (s : Str) :
    matchHere s = none ↔ ∀ g, IsGroup g → ¬ g <+: s := by
  constructor
  · intro h g hg hp
    have := (matchHere_some_iff s g).2 ⟨hg, hp⟩
    rw [h] at this
    exact Option.noConfusion this
  · intro h
    cases hm : matchHere s with
    | none => rfl
    | some m =>
      have := (matchHere_some_iff s m).1 hm
      exact absurd this.2 (h m this.1)

theorem FindString_cons_some {c : Char} {cs m : Str} (h : matchHere (c :: cs) = some m) :
    FindString (c :: cs) = m := by
  simp [FindString, h]

theorem FindString_cons_none {c : Char} {cs : Str} (h : matchHere (c :: cs) = none) :
    FindString (c :: cs) = FindString cs := by
  simp [FindString, h]

theorem not_GroupAt_nil (n : Nat) (g : Str) : ¬ GroupAt [] n g := by
  rintro ⟨hg, hp⟩
  simp only [List.drop_nil, List.prefix_nil] at hp
  exact IsGroup_ne_nil hg hp

/-- What `FindString` returns: the leftmost bracket group of the line, or the
empty string when the line has no bracket group. -/
theorem FindString_spec (line : Str) :
    (∃ n, LeftmostGroupAt line n (FindString line)) ∨
      (FindString line = [] ∧ ¬ HasGroup line) := by
  induction line with
  | nil =>
    right
    refine ⟨rfl, ?_⟩
    rintro ⟨n, g, h⟩
    exact not_GroupAt_nil n g h
  | cons c cs ih =>
    cases hm : matchHere (c :: cs) with
    | some m =>
      left
      rw [FindString_cons_some hm]
      exact ⟨0, (matchHere_some_iff _ _).1 hm, fun k _ _ => Nat.zero_le k⟩
    | none =>
      rw [FindString_cons_none hm]
      have hnone := (matchHere_none_iff _).1 hm
      rcases ih with ⟨n, ⟨hg, hp⟩, hmin⟩ | ⟨he, hno⟩
      · left
        refine ⟨n + 1, ⟨hg, by simpa using hp⟩, ?_⟩
        intro k g' hk
        cases k with
        | zero => exact absurd (by simpa using hk.2) (hnone g' hk.1)
        | succ k =>
          have := hmin k g' ⟨hk.1, by simpa using hk.2⟩
          omega
      · right
        refine ⟨he, ?_⟩
        rintro ⟨k, g', hk⟩
        cases k with
        | zero => exact absurd (by simpa using hk.2) (hnone g' hk.1)
        | succ k => exact hno ⟨k, g', hk.1, by simpa using hk.2⟩

theorem GroupAt_unique {line : Str} {n : Nat} {g g' : Str} (h : GroupAt line n g)
    (h' : GroupAt line n g') : g = g' := by
  have h1 := (matchHere_some_iff (line.drop n) g).2 h
  have h2 := (matchHere_some_iff (line.drop n) g').2 h'
  rw [h1] at h2
  exact Option.some.inj h2

theorem LeftmostGroupAt_unique {line : Str} {n n' : Nat} {g g' : Str}
    (h : LeftmostGroupAt line n g) (h' : LeftmostGroupAt line n' g') : n = n' ∧ g = g' := by
  have h1 := h.2 n' g' h'.1
  have h2 := h'.2 n g h.1
  have hn : n = n' := by omega
  subst hn
  exact ⟨rfl, GroupAt_unique h.1 h'.1⟩

theorem FindString_eq_of_leftmost {line g : Str} (h : LeftmostGroup line g) :
    FindString line = g := by
  obtain ⟨n, hn⟩ := h
  rcases FindString_spec line with ⟨k, hk⟩ | ⟨-, hno⟩
  · exact (LeftmostGroupAt_unique hk hn).2
  · exact absurd ⟨n, g, hn.1⟩ hno

theorem FindString_leftmost_of_hasGroup {line : Str} (h : HasGroup line) :
    LeftmostGroup line (FindString line) := by
  rcases FindString_spec line with hk | ⟨-, hno⟩
  · exact hk
  · exact absurd h hno

theorem FindString_eq_nil_of_noGroup {line : Str} (h : ¬ HasGroup line) :
    FindString line = [] := by
  rcases FindString_spec line with ⟨k, hk⟩ | ⟨he, -⟩
  · exact absurd ⟨k, _, hk.1⟩ h
  · exact he

theorem matchHere_append_open (p : Str) (hp : p ≠ []) (z z' : Str) :
    matchHere (p ++ '[' :: z) = matchHere (p ++ '[' :: z') := by
  cases p with
  | nil => exact absurd rfl hp
  | cons c rest =>
    simp only [List.cons_append, matchHere]
    split_ifs with hc
    · have hopen : nonBracket '[' = false := by decide
      have hsplit := List.takeWhile_append_dropWhile nonBracket rest
      obtain ⟨tw, htw⟩ : ∃ tw, tw = rest.takeWhile nonBracket := ⟨_, rfl⟩
      have hall : ∀ c ∈ tw, nonBracket c = true := by
        intro c hc
        rw [htw] at hc
        exact List.mem_takeWhile_imp hc
      rw [← htw] at hsplit
      cases hd : rest.dropWhile nonBracket with
      | nil =>
        rw [hd, List.append_nil] at hsplit
        subst hsplit
        have r1 := takeWhile_run nonBracket tw '[' z hall hopen
        have r2 := takeWhile_run nonBracket tw '[' z' hall hopen
        simp [r1.2, r2.2]
      | cons d tl =>
        have hdn : nonBracket d = false := by
          have := List.head?_dropWhile_not nonBracket rest
          rw [hd] at this
          simpa using this
        rw [hd] at hsplit
        subst hsplit
        have r1 := takeWhile_run nonBracket tw d (tl ++ '[' :: z) hall hdn
        have r2 := takeWhile_run nonBracket tw d (tl ++ '[' :: z') hall hdn
        simp only [List.append_assoc, List.cons_append, r1.1, r1.2, r2.1, r2.2]
    · rfl

theorem FindString_append_open (p z z' g : Str) (h : matchHere ('[' :: z) = some g)
    (h' : matchHere ('[' :: z') = some g) :
    FindString (p ++ '[' :: z) = FindString (p ++ '[' :: z') := by
  induction p with
  | nil =>
    simp only [List.nil_append]
    rw [FindString_cons_some h, FindString_cons_some h']
  | cons c rest ih =>
    have hm := matchHere_append_open (c :: rest) (List.cons_ne_nil _ _) z z'
    simp only [List.cons_append] at hm ⊢
    cases hc : matchHere (c :: (rest ++ '[' :: z')) with
    | some m =>
      rw [FindString_cons_some hc, FindString_cons_some (hm.trans hc)]
    | none =>
      rw [FindString_cons_none hc, FindString_cons_none (hm.trans hc), ih]

/-- The text after the leftmost bracket group does not matter to `FindString`. -/
theorem FindString_tail_irrelevant {text : Str} {n : Nat} {g : Str}
    (h : LeftmostGroupAt text n g) (post : Str) :
    FindString (text.take (n + g.length) ++ post) = FindString text := by
  obtain ⟨⟨hg, ⟨t, ht⟩⟩, -⟩ := h
  have hlt : n < text.length := by
    by_contra hcon
    rw [List.drop_of_length_le (by omega)] at ht
    exact IsGroup_ne_nil hg (List.append_eq_nil.1 ht).1
  obtain ⟨pre, hpre⟩ : ∃ pre, pre = text.take n := ⟨_, rfl⟩
  have hlen : pre.length = n := by
    rw [hpre, List.length_take]
    omega
  have hsplit : text = pre ++ (g ++ t) := by
    rw [hpre, ht, List.take_append_drop]
  have htake : text.take (n + g.length) = pre ++ g := by
    rw [hsplit, ← hlen, List.take_append, List.take_left]
  rw [htake]
  conv_rhs => rw [hsplit]
  have hg' := hg
  obtain ⟨body, rfl, hb⟩ := hg'
  have m1 : matchHere ('[' :: (body ++ ([']'] ++ post))) = some ('[' :: (body ++ [']'])) :=
    (matchHere_some_iff _ _).2 ⟨hg, ⟨post, by simp⟩⟩
  have m2 : matchHere ('[' :: (body ++ ([']'] ++ t))) = some ('[' :: (body ++ [']'])) :=
    (matchHere_some_iff _ _).2 ⟨hg, ⟨t, by simp⟩⟩
  simp only [List.cons_append, List.append_assoc]
  exact FindString_append_open _ _ _ _ m1 m2

theorem FindString_wrapped (p a t : Str) (hp : ∀ c ∈ p, c ≠ '[') (ha : ∀ c ∈ a, c ≠ '[' ∧ c ≠ ']') :
    FindString (p ++ '[' :: (a ++ ']' :: t)) = '[' :: (a ++ [']']) := by
  induction p with
  | nil =>
    apply FindString_cons_some
    exact (matchHere_some_iff _ _).2 ⟨⟨a, rfl, ha⟩, ⟨t, by simp⟩⟩
  | cons c rest ih =>
    have hc : c ≠ '[' := hp c (List.mem_cons_self _ _)
    have : matchHere (c :: (rest ++ '[' :: (a ++ ']' :: t))) = none := by
      simp [matchHere, hc]
    simp only [List.cons_append]
    rw [FindString_cons_none this]
    exact ih (fun c hc => hp c (List.mem_cons_of_mem _ hc))

/-! ## The job enumerator -/

theorem fieldsRef_cons_sep {f : Char → Bool} {r : Char} (rest : Str) (h : f r = true) :
    fieldsRef f (r :: rest) = fieldsRef f rest := by
  simp [fieldsRef, List.splitOnP_cons, h]

theorem fieldsLoop_eq (f : Char → Bool) (s : Str) :
    (∀ spans, fieldsLoop f s none spans = spans ++ fieldsRef f s) ∧
      (∀ cur spans, cur ≠ [] → fieldsLoop f s (some cur) spans =
        spans ++ ((s.splitOnP f).modifyHead (fun t => cur ++ t)).filter
          (fun t => !t.isEmpty)) := by
  induction s with
  | nil =>
    refine ⟨fun spans => by simp [fieldsLoop, fieldsRef], fun cur spans hcur => ?_⟩
    simp [fieldsLoop, hcur]
  | cons r rest ih =>
    obtain ⟨ih1, ih2⟩ := ih
    obtain ⟨hd, tl, hs⟩ : ∃ hd tl, rest.splitOnP f = hd :: tl := by
      cases hs : rest.splitOnP f with
      | nil => exact absurd hs (List.splitOnP_ne_nil _ _)
      | cons hd tl => exact ⟨hd, tl, rfl⟩
    cases hf : f r with
    | true =>
      refine ⟨fun spans => ?_, fun cur spans hcur => ?_⟩
      · simp only [fieldsLoop, hf, if_true]
        rw [ih1, fieldsRef_cons_sep rest hf]
      · simp only [fieldsLoop, hf, if_true]
        rw [ih1]
        simp [fieldsRef, List.splitOnP_cons, hf, hcur]
    | false =>
      refine ⟨fun spans => ?_, fun cur spans hcur => ?_⟩
      · simp only [fieldsLoop, hf]
        rw [if_neg (by simp), ih2 [r] spans (List.cons_ne_nil _ _)]
        simp [fieldsRef, List.splitOnP_cons, hf, hs]
      · simp only [fieldsLoop, hf]
        rw [if_neg (by simp), ih2 (cur ++ [r]) spans (by simp)]
        simp [List.splitOnP_cons, hf, hs]

/-- Go `strings.FieldsFunc` splits on the separators and drops empty tokens. -/
theorem FieldsFunc_eq_fieldsRef (s : Str) (f : Char → Bool) :
    FieldsFunc s f = fieldsRef f s := by
  simpa [FieldsFunc] using (fieldsLoop_eq f s).1 []

theorem splitOnP_no_sep (f : Char → Bool) (s : Str) :
    ∀ t ∈ s.splitOnP f, ∀ c ∈ t, f c = false := by
  induction s with
  | nil => simp
  | cons r rest ih =>
    cases hf : f r with
    | true =>
      intro t ht
      simp only [List.splitOnP_cons, hf, if_true, List.mem_cons] at ht
      rcases ht with rfl | ht
      · simp
      · exact ih t ht
    | false =>
      cases hs : rest.splitOnP f with
      | nil => exact absurd hs (List.splitOnP_ne_nil _ _)
      | cons hd tl =>
        rw [hs] at ih
        intro t ht
        rw [List.splitOnP_cons, hf, if_neg (by simp), hs, List.modifyHead_cons] at ht
        rcases List.mem_cons.1 ht with ht | ht
        · intro c hc
          rw [ht] at hc
          rcases List.mem_cons.1 hc with hc | hc
          · rw [hc]
            exact hf
          · exact ih hd (List.mem_cons_self _ _) c hc
        · exact ih t (List.mem_cons_of_mem _ ht)

theorem fieldsRef_tokens (f : Char → Bool) (s : Str) :
    ∀ t ∈ fieldsRef f s, t ≠ [] ∧ ∀ c ∈ t, f c = false := by
  intro t ht
  simp only [fieldsRef, List.mem_filter] at ht
  refine ⟨?_, splitOnP_no_sep f s t ht.1⟩
  intro h
  simp [h] at ht

/-! ## Claims about the diff classifier -/

theorem classify_Diff (job : Str) (jobindex : Int) (lines : List Str) :
    (classify job jobindex lines).Diff = captured lines := by
  simp [classify, scanFrom_Diff, NewJobUpdate]

theorem classify_Dirty (job : Str) (jobindex : Int) (lines : List Str) :
    (classify job jobindex lines).Dirty =
      (lines.any (fun l => HasPrefix l removeLit || HasPrefix l addLit)
        || !(captured lines).isEmpty) := by
  simp [classify, scanFrom_Dirty, NewJobUpdate]

theorem DirtyInv_lineStep (j : JobUpdate) (text : Str) (h : DirtyInv j) :
    DirtyInv (lineStep j text) := by
  rcases line_cases text with h1 | h1 | h1 | h1 | ⟨hh, hr⟩
  · rw [lineStep_remove j h1]
    intro _
    rfl
  · rw [lineStep_add j h1]
    intro _
    rfl
  · rw [lineStep_update j h1]
    exact h
  · rw [lineStep_header j h1]
    exact h
  · cases hj : j.FoundHeader
    · rw [lineStep_other_before j hh hr hj]
      intro _
      rfl
    · rw [lineStep_other_after j hr hj]
      exact h

theorem DirtyInv_scanFrom (j : JobUpdate) (lines : List Str) (h : DirtyInv j) :
    DirtyInv (scanFrom j lines) := by
  induction lines generalizing j with
  | nil => exact h
  | cons l ls ih =>
    rw [scanFrom_cons]
    exact ih _ (DirtyInv_lineStep j l h)

/-- C1 as stated fails: the headerless one-line input `update instances: [0-2]`
has that line as its whole leading run, yet `Diff` stays empty and `Dirty`
stays false. -/
theorem C1_counterexample :
    preamble ["update instances: [0-2]".toList] = ["update instances: [0-2]".toList] ∧
      (classify [] 0 ["update instances: [0-2]".toList]).Diff = [] ∧
      (classify [] 0 ["update instances: [0-2]".toList]).Dirty = false := by
  decide

/-- C1 (amended): the final `Diff` is exactly the run of lines before the first
header line with the lines that carry a range marker left out, in order;
`Dirty` is true whenever that filtered run is non-empty; and an input with no
header line and no range-marker line has all of its lines in `Diff`, with
`Dirty` true when it has a line. -/
theorem C1_preamble_captured (job : Str) (jobindex : Int) (lines : List Str) :
    (classify job jobindex lines).Diff =
        (preamble lines).filter (fun l => !hasRangeMarker l) ∧
      ((preamble lines).filter (fun l => !hasRangeMarker l) ≠ [] →
        (classify job jobindex lines).Dirty = true) ∧
      ((∀ l ∈ lines, HasPrefix l headerLit = false ∧ hasRangeMarker l = false) →
        (classify job jobindex lines).Diff = lines ∧
          (lines ≠ [] → (classify job jobindex lines).Dirty = true)) := by
  have hD := classify_Diff job jobindex lines
  have hdirty : captured lines ≠ [] → (classify job jobindex lines).Dirty = true := by
    intro hne
    rw [classify_Dirty]
    cases hc : captured lines with
    | nil => exact absurd hc hne
    | cons x xs => simp
  refine ⟨hD, hdirty, ?_⟩
  intro hall
  have hpre : preamble lines = lines := by
    unfold preamble
    rw [List.takeWhile_eq_self_iff]
    intro l hl
    simp [(hall l hl).1]
  have hcap : captured lines = lines := by
    unfold captured
    rw [hpre, List.filter_eq_self]
    intro l hl
    simp [(hall l hl).2]
  refine ⟨hD.trans hcap, fun hne => hdirty ?_⟩
  rw [hcap]
  exact hne

/-- C1 (amended) at the headerless input `unexpected format`, `more text` of
the specification. -/
theorem C1_preamble_captured_witness :
    (∀ l ∈ ["unexpected format".toList, "more text".toList],
        HasPrefix l headerLit = false ∧ hasRangeMarker l = false) ∧
      (classify [] 0 ["unexpected format".toList, "more text".toList]).Diff =
        ["unexpected format".toList, "more text".toList] ∧
      (classify [] 0 ["unexpected format".toList, "more text".toList]).Dirty = true :=
  ⟨by decide,
    ((C1_preamble_captured [] 0 ["unexpected format".toList, "more text".toList]).2.2
      (by decide)).1,
    ((C1_preamble_captured [] 0 ["unexpected format".toList, "more text".toList]).2.2
      (by decide)).2 (by decide)⟩

/-- C2: the implication "`Add`, `Remove` or `Diff` non-empty gives `Dirty`"
holds for the record `NewJobUpdate` returns, is preserved by the loop body on
every line from every record, and so holds after every prefix of the input
and at the end of the scan. -/
theorem C2_dirty_invariant (job : Str) (jobindex : Int) (lines : List Str) :
    DirtyInv (NewJobUpdate job jobindex) ∧
      (∀ j text, DirtyInv j → DirtyInv (lineStep j text)) ∧
      (∀ k, DirtyInv (classify job jobindex (lines.take k))) ∧
      DirtyInv (classify job jobindex lines) := by
  have h0 : DirtyInv (NewJobUpdate job jobindex) := by
    intro h
    simp [NewJobUpdate] at h
  exact ⟨h0, DirtyInv_lineStep, fun k => DirtyInv_scanFrom _ _ h0, DirtyInv_scanFrom _ _ h0⟩

/-- C2 at the record reached after `add instances: [3-5]`: `Add` is non-empty
and `Dirty` is true. -/
theorem C2_dirty_invariant_witness :
    (classify [] 0 ["add instances: [3-5]".toList]).Add ≠ [] ∧
      (classify [] 0 ["add instances: [3-5]".toList]).Dirty = true :=
  ⟨by decide,
    (C2_dirty_invariant [] 0 ["add instances: [3-5]".toList]).2.2.2
      (Or.inl (by decide))⟩

/-- C3 as stated fails: for the lines `foo`, `This job update will:` the final
`Diff` holds `foo` and `FoundHeader` is true at the end of the scan. -/
theorem C3_counterexample :
    (classify [] 0 ["foo".toList, "This job update will:".toList]).Diff ≠ [] ∧
      (classify [] 0 ["foo".toList, "This job update will:".toList]).FoundHeader = true := by
  decide

/-- C3 (amended): if the final `Diff` is non-empty then the first line of the
input does not begin with the header literal, and every line held in `Diff`
stands before the first header line; the loop body appends to `Diff` only
when `FoundHeader` is false after that line. -/
theorem C3_diff_before_header (job : Str) (jobindex : Int) (lines : List Str)
    (h : (classify job jobindex lines).Diff ≠ []) :
    (∃ l rest, lines = l :: rest ∧ HasPrefix l headerLit = false) ∧
      (∀ l ∈ (classify job jobindex lines).Diff, l ∈ preamble lines) ∧
      (∀ j text, (lineStep j text).Diff ≠ j.Diff → (lineStep j text).FoundHeader = false) := by
  rw [classify_Diff] at h
  refine ⟨?_, ?_, ?_⟩
  · cases lines with
    | nil => exact absurd rfl h
    | cons l rest =>
      refine ⟨l, rest, rfl, ?_⟩
      cases hh : HasPrefix l headerLit with
      | false => rfl
      | true => exact absurd (captured_cons_header rest hh) h
  · intro l hl
    rw [classify_Diff] at hl
    exact (List.mem_filter.1 hl).1
  · intro j text hne
    rcases line_cases text with h1 | h1 | h1 | h1 | ⟨hh, hr⟩
    · rw [lineStep_remove j h1] at hne
      exact absurd rfl hne
    · rw [lineStep_add j h1] at hne
      exact absurd rfl hne
    · rw [lineStep_update j h1] at hne
      exact absurd rfl hne
    · rw [lineStep_header j h1] at hne
      exact absurd rfl hne
    · cases hj : j.FoundHeader
      · rw [lineStep_other_before j hh hr hj]
        exact hj
      · rw [lineStep_other_after j hr hj] at hne
        exact absurd rfl hne

/-- C3 (amended) at the input `foo`, `This job update will:`. -/
theorem C3_diff_before_header_witness :
    (classify [] 0 ["foo".toList, "This job update will:".toList]).Diff ≠ [] ∧
      (∃ l rest, ["foo".toList, "This job update will:".toList] = l :: rest ∧
        HasPrefix l headerLit = false) :=
  ⟨by decide, (C3_diff_before_header [] 0 _ (by decide)).1⟩

/-- C4: when the first line begins with the header literal and no line begins
with `remove instances:` or `add instances:`, the scan ends with `Dirty`
false and `Diff` empty; a line beginning with `update instances:` never
changes `Dirty`; and the lines `This job update will:`,
`update instances: [0-2]` give `Dirty` false and `Update` `[0-2]`. -/
theorem C4_update_only_clean (job : Str) (jobindex : Int) (first : Str) (rest : List Str)
    (hfirst : HasPrefix first headerLit = true)
    (hnone : ∀ l ∈ first :: rest,
      HasPrefix l removeLit = false ∧ HasPrefix l addLit = false) :
    (classify job jobindex (first :: rest)).Dirty = false ∧
      (classify job jobindex (first :: rest)).Diff = [] ∧
      (∀ j text, HasPrefix text updateLit = true → (lineStep j text).Dirty = j.Dirty) ∧
      classify job jobindex
          ["This job update will:".toList, "update instances: [0-2]".toList] =
        { NewJobUpdate job jobindex with
          Dirty := false, FoundHeader := true, Update := "[0-2]".toList } := by
  have hcap : captured (first :: rest) = [] := captured_cons_header rest hfirst
  refine ⟨?_, ?_, ?_, ?_⟩
  · rw [classify_Dirty, hcap]
    simp only [List.isEmpty_nil, Bool.not_true, Bool.or_false]
    rw [Bool.eq_false_iff]
    intro hany
    obtain ⟨l, hl, hp⟩ := List.any_eq_true.1 hany
    have := hnone l hl
    simp [this.1, this.2] at hp
  · rw [classify_Diff, hcap]
  · intro j text hu
    rw [lineStep_update j hu]
  · have h1 : HasPrefix "This job update will:".toList headerLit = true := by decide
    have h2 : HasPrefix "update instances: [0-2]".toList updateLit = true := by decide
    have h3 : FindString "update instances: [0-2]".toList = "[0-2]".toList := by decide
    simp only [classify, scanFrom, List.foldl_cons, List.foldl_nil]
    rw [lineStep_header _ h1, lineStep_update _ h2, h3]
    rfl

/-- C4 at the lines `This job update will:`, `update instances: [0-2]`. -/
theorem C4_update_only_clean_witness :
    HasPrefix "This job update will:".toList headerLit = true ∧
      (classify [] 0
        ["This job update will:".toList, "update instances: [0-2]".toList]).Dirty = false ∧
      (classify [] 0
        ["This job update will:".toList, "update instances: [0-2]".toList]).Diff = [] :=
  ⟨by decide,
    (C4_update_only_clean [] 0 "This job update will:".toList
      ["update instances: [0-2]".toList] (by decide) (by decide)).1,
    (C4_update_only_clean [] 0 "This job update will:".toList
      ["update instances: [0-2]".toList] (by decide) (by decide)).2.1⟩

theorem RangeSpec_FindString (line : Str) : RangeSpec line (FindString line) := by
  rcases FindString_spec line with h | h
  · exact Or.inl h
  · exact Or.inr h

theorem not_HasGroup_of_FindString_nil {line : Str} (h : FindString line = []) :
    ¬ HasGroup line := by
  intro hg
  obtain ⟨n, hn⟩ := FindString_leftmost_of_hasGroup hg
  rw [h] at hn
  exact IsGroup_ne_nil hn.1.1 rfl

theorem lastWith_eq_some {p : Str} {pre post : List Str} {l : Str}
    (hl : HasPrefix l p = true) (hpost : ∀ x ∈ post, HasPrefix x p = false) :
    lastWith p (pre ++ l :: post) = some l := by
  have hnil : post.filter (fun x => HasPrefix x p) = [] := by
    rw [List.filter_eq_nil_iff]
    intro x hx
    simp [hpost x hx]
  unfold lastWith
  rw [List.filter_append, List.filter_cons, hl, if_pos rfl, hnil]
  exact List.getLast?_concat _

theorem lastWith_eq_none {p : Str} {lines : List Str}
    (h : ∀ x ∈ lines, HasPrefix x p = false) : lastWith p lines = none := by
  have hnil : lines.filter (fun x => HasPrefix x p) = [] := by
    rw [List.filter_eq_nil_iff]
    intro x hx
    simp [h x hx]
  unfold lastWith
  rw [hnil]
  rfl

theorem DecidedByLast_rangeOf (marker : Str) (lines : List Str) :
    DecidedByLast marker lines (rangeOf [] (lastWith marker lines)) := by
  constructor
  · intro pre l post hsplit hl hpost
    rw [hsplit, lastWith_eq_some hl hpost]
    exact RangeSpec_FindString l
  · intro h
    rw [lastWith_eq_none h]
    rfl

theorem lastWith_filter_header {p : Str}
    (hex : ∀ l, HasPrefix l p = true → HasPrefix l headerLit = false) (lines : List Str) :
    lastWith p (lines.filter (fun l => !HasPrefix l headerLit)) = lastWith p lines := by
  unfold lastWith
  rw [List.filter_filter]
  congr 1
  apply List.filter_congr
  intro l _
  cases hp : HasPrefix l p with
  | false => rfl
  | true => simp [hex l hp]

/-- C5: on a line that begins with `remove instances:` (respectively
`add instances:`) and has a bracket group, the loop body sets `Remove`
(respectively `Add`) to the leftmost bracket group of the line, which is
unique, and sets `Dirty`; and for bracket-free `a` and `r` the lines
`This job update will:`, `add instances: [a]`, `remove instances: [r]` give
`Dirty` true, `Add` `[a]`, `Remove` `[r]`, an empty `Update` and an empty
`Diff`. -/
theorem C5_marker_extraction (j : JobUpdate) (text : Str) (job : Str) (jobindex : Int)
    (a r : Str) (hgroup : HasGroup text)
    (ha : ∀ c ∈ a, c ≠ '[' ∧ c ≠ ']') (hr : ∀ c ∈ r, c ≠ '[' ∧ c ≠ ']') :
    (HasPrefix text removeLit = true →
        LeftmostGroup text (lineStep j text).Remove ∧ (lineStep j text).Dirty = true) ∧
      (HasPrefix text addLit = true →
        LeftmostGroup text (lineStep j text).Add ∧ (lineStep j text).Dirty = true) ∧
      (∀ g g', LeftmostGroup text g → LeftmostGroup text g' → g = g') ∧
      (classify job jobindex (summaryLines a r)).Dirty = true ∧
      (classify job jobindex (summaryLines a r)).Add = '[' :: (a ++ [']']) ∧
      (classify job jobindex (summaryLines a r)).Remove = '[' :: (r ++ [']']) ∧
      (classify job jobindex (summaryLines a r)).Update = [] ∧
      (classify job jobindex (summaryLines a r)).Diff = [] := by
  have hleft := FindString_leftmost_of_hasGroup hgroup
  have h1 : HasPrefix "This job update will:".toList headerLit = true := by decide
  have h2 : HasPrefix ("add instances: ".toList ++ '[' :: (a ++ [']'])) addLit = true :=
    (HasPrefix_iff _ _).2 ⟨' ' :: '[' :: (a ++ [']']), rfl⟩
  have h3 : HasPrefix ("remove instances: ".toList ++ '[' :: (r ++ [']'])) removeLit = true :=
    (HasPrefix_iff _ _).2 ⟨' ' :: '[' :: (r ++ [']']), rfl⟩
  have f2 : FindString ("add instances: ".toList ++ '[' :: (a ++ [']'])) = '[' :: (a ++ [']']) :=
    FindString_wrapped _ a [] (by decide) ha
  have f3 : FindString ("remove instances: ".toList ++ '[' :: (r ++ [']'])) =
      '[' :: (r ++ [']']) :=
    FindString_wrapped _ r [] (by decide) hr
  have hres : classify job jobindex (summaryLines a r) =
      { NewJobUpdate job jobindex with
        Dirty := true, FoundHeader := true,
        Add := '[' :: (a ++ [']']), Remove := '[' :: (r ++ [']']) } := by
    simp only [classify, summaryLines, scanFrom, List.foldl_cons, List.foldl_nil]
    rw [lineStep_header _ h1, lineStep_add _ h2, lineStep_remove _ h3, f2, f3]
  refine ⟨?_, ?_, ?_, ?_, ?_, ?_, ?_, ?_⟩
  · intro hp
    rw [lineStep_remove j hp]
    exact ⟨hleft, rfl⟩
  · intro hp
    rw [lineStep_add j hp]
    exact ⟨hleft, rfl⟩
  · intro g g' hg hg'
    rw [← FindString_eq_of_leftmost hg, ← FindString_eq_of_leftmost hg']
  all_goals rw [hres]
  all_goals rfl

/-- C5 at the line `remove instances: [0-2]` and the ranges `[3-5]`, `[0-2]`. -/
theorem C5_marker_extraction_witness :
    HasGroup "remove instances: [0-2]".toList ∧
      LeftmostGroup "remove instances: [0-2]".toList
        (lineStep (NewJobUpdate [] 0) "remove instances: [0-2]".toList).Remove ∧
      (classify [] 0 (summaryLines "3-5".toList "0-2".toList)).Add = "[3-5]".toList ∧
      (classify [] 0 (summaryLines "3-5".toList "0-2".toList)).Remove = "[0-2]".toList := by
  have hg : HasGroup "remove instances: [0-2]".toList :=
    ⟨18, "[0-2]".toList, ⟨"0-2".toList, by decide, by decide⟩, ⟨[], by decide⟩⟩
  have h := C5_marker_extraction (NewJobUpdate [] 0) "remove instances: [0-2]".toList [] 0
    "3-5".toList "0-2".toList hg (by decide) (by decide)
  exact ⟨hg, (h.1 (by decide)).1, h.2.2.2.2.1, h.2.2.2.2.2.1⟩

/-- C6 as stated fails: after `remove instances: [0]` the field `Remove` holds
`[0]`; the next line `remove instances: none` begins with the marker, has no
bracket group, and leaves `Remove` empty, not equal to its value before. -/
theorem C6_counterexample :
    HasPrefix "remove instances: none".toList removeLit = true ∧
      ¬ HasGroup "remove instances: none".toList ∧
      (classify [] 0 ["remove instances: [0]".toList]).Remove = "[0]".toList ∧
      (lineStep (classify [] 0 ["remove instances: [0]".toList])
        "remove instances: none".toList).Remove = [] :=
  ⟨by decide, not_HasGroup_of_FindString_nil (by decide), by decide, by decide⟩

/-- C6 (amended): when a line begins with `remove instances:`, `add instances:`
or `update instances:` and has no bracket group, the loop body sets the
corresponding range field to the empty string whatever it held before (so it
remains empty if it was empty), and leaves the other two range fields as they
were. -/
theorem C6_no_group_clears (j : JobUpdate) (text : Str) (hno : ¬ HasGroup text) :
    (HasPrefix text removeLit = true →
        (lineStep j text).Remove = [] ∧ (lineStep j text).Add = j.Add ∧
          (lineStep j text).Update = j.Update) ∧
      (HasPrefix text addLit = true →
        (lineStep j text).Add = [] ∧ (lineStep j text).Remove = j.Remove ∧
          (lineStep j text).Update = j.Update) ∧
      (HasPrefix text updateLit = true →
        (lineStep j text).Update = [] ∧ (lineStep j text).Remove = j.Remove ∧
          (lineStep j text).Add = j.Add) := by
  have hf := FindString_eq_nil_of_noGroup hno
  refine ⟨fun hp => ?_, fun hp => ?_, fun hp => ?_⟩
  · rw [lineStep_remove j hp, hf]
    exact ⟨rfl, rfl, rfl⟩
  · rw [lineStep_add j hp, hf]
    exact ⟨rfl, rfl, rfl⟩
  · rw [lineStep_update j hp, hf]
    exact ⟨rfl, rfl, rfl⟩

/-- C6 (amended) at the record reached after `remove instances: [0]` and the
line `remove instances: none`. -/
theorem C6_no_group_clears_witness :
    ¬ HasGroup "remove instances: none".toList ∧
      (lineStep (classify [] 0 ["remove instances: [0]".toList])
        "remove instances: none".toList).Remove = [] :=
  ⟨not_HasGroup_of_FindString_nil (by decide),
    ((C6_no_group_clears (classify [] 0 ["remove instances: [0]".toList])
      "remove instances: none".toList
      (not_HasGroup_of_FindString_nil (by decide))).1 (by decide)).1⟩

/-- C7: the job list is the leftmost bracket group of the text split on the
characters `[`, `]`, `,` and space with the empty tokens discarded; every job
is non-empty and free of those characters; a text with no bracket group gives
no job; the text after the leftmost group does not matter; and
`jobs=[foo/bar/a, foo/bar/b]` gives `foo/bar/a`, `foo/bar/b`. -/
theorem C7_job_enumeration (text : Str) :
    (HasGroup text → ∃ g, LeftmostGroup text g) ∧
      (∀ g, LeftmostGroup text g → jobs text = fieldsRef jobseparators g) ∧
      (¬ HasGroup text → jobs text = []) ∧
      (∀ t ∈ jobs text, t ≠ [] ∧ ∀ c ∈ t, c ≠ '[' ∧ c ≠ ']' ∧ c ≠ ',' ∧ c ≠ ' ') ∧
      (∀ n g post, LeftmostGroupAt text n g →
        jobs (text.take (n + g.length) ++ post) = jobs text) ∧
      jobs "jobs=[foo/bar/a, foo/bar/b]".toList =
        ["foo/bar/a".toList, "foo/bar/b".toList] := by
  refine ⟨?_, ?_, ?_, ?_, ?_, by decide⟩
  · intro h
    exact ⟨_, FindString_leftmost_of_hasGroup h⟩
  · intro g hg
    rw [jobs, FieldsFunc_eq_fieldsRef, FindString_eq_of_leftmost hg]
  · intro h
    rw [jobs, FieldsFunc_eq_fieldsRef, FindString_eq_nil_of_noGroup h]
    rfl
  · intro t ht
    rw [jobs, FieldsFunc_eq_fieldsRef] at ht
    obtain ⟨hne, hsep⟩ := fieldsRef_tokens _ _ t ht
    refine ⟨hne, fun c hc => ?_⟩
    have := hsep c hc
    simpa [jobseparators, and_assoc] using this
  · intro n g post h
    rw [jobs, jobs, FindString_tail_irrelevant h post]

/-- C7 at the text `x [a, b] y [c]`: the leftmost group is `[a, b]` at offset
2, and the text after it can be replaced without changing the jobs. -/
theorem C7_job_enumeration_witness :
    jobs "x [a, b] y [c]".toList = fieldsRef jobseparators "[a, b]".toList ∧
      jobs ("x [a, b] y [c]".toList.take (2 + "[a, b]".toList.length) ++ "zz".toList) =
        jobs "x [a, b] y [c]".toList := by
  have hl : LeftmostGroupAt "x [a, b] y [c]".toList 2 "[a, b]".toList := by
    rcases FindString_spec "x [a, b] y [c]".toList with ⟨n, hn⟩ | ⟨he, -⟩
    · have hf : FindString "x [a, b] y [c]".toList = "[a, b]".toList := by decide
      rw [hf] at hn
      have hg : GroupAt "x [a, b] y [c]".toList 2 "[a, b]".toList :=
        ⟨hn.1.1, ⟨" y [c]".toList, by decide⟩⟩
      have hle := hn.2 2 _ hg
      have h0 : ¬ GroupAt "x [a, b] y [c]".toList 0 "[a, b]".toList := by
        rintro ⟨-, hp⟩
        exact absurd hp (by decide)
      have h1 : ¬ GroupAt "x [a, b] y [c]".toList 1 "[a, b]".toList := by
        rintro ⟨-, hp⟩
        exact absurd hp (by decide)
      have hn2 : n = 2 := by
        rcases Nat.lt_or_ge n 2 with hlt | hge
        · interval_cases n
          · exact absurd hn.1 h0
          · exact absurd hn.1 h1
        · omega
      rw [hn2] at hn
      exact hn
    · exact absurd he (by decide)
  exact ⟨(C7_job_enumeration _).2.1 _ ⟨2, hl⟩, (C7_job_enumeration _).2.2.2.2.1 2 _ _ hl⟩

/-- C8: once `FoundHeader` is true, a line that begins with none of the three
range markers leaves the record unchanged; a header line sets `FoundHeader`
and leaves `Diff` as it was; so the lines `pre ++ [h] ++ post` with a header
line `h` give the same `Diff` as `pre` alone. -/
theorem C8_after_header_frame (job : Str) (jobindex : Int) (pre post : List Str) (h : Str)
    (hh : HasPrefix h headerLit = true) :
    (∀ j text, j.FoundHeader = true → HasPrefix text removeLit = false →
        HasPrefix text addLit = false → HasPrefix text updateLit = false →
        lineStep j text = j) ∧
      (∀ j, (lineStep j h).FoundHeader = true ∧ (lineStep j h).Diff = j.Diff) ∧
      (classify job jobindex (pre ++ [h] ++ post)).Diff = (classify job jobindex pre).Diff := by
  refine ⟨?_, ?_, ?_⟩
  · intro j text hj h1 h2 h3
    exact lineStep_other_after j (by simp [hasRangeMarker, h1, h2, h3]) hj
  · intro j
    rw [lineStep_header j hh]
    exact ⟨rfl, rfl⟩
  · have hfound : (scanFrom (NewJobUpdate job jobindex) (pre ++ [h])).FoundHeader = true := by
      rw [scanFrom_FoundHeader]
      simp [hh]
    have hdiff : (scanFrom (NewJobUpdate job jobindex) (pre ++ [h])).Diff =
        (scanFrom (NewJobUpdate job jobindex) pre).Diff := by
      rw [scanFrom_append, scanFrom_cons, scanFrom_nil, lineStep_header _ hh]
    unfold classify
    rw [scanFrom_append, scanFrom_Diff, hfound, if_pos rfl, List.append_nil, hdiff]

/-- C8 at `pre = [foo]`, the header line itself and `post = [bar]`. -/
theorem C8_after_header_frame_witness :
    HasPrefix "This job update will:".toList headerLit = true ∧
      (classify [] 0 (["foo".toList] ++ ["This job update will:".toList] ++
        ["bar".toList])).Diff = (classify [] 0 ["foo".toList]).Diff :=
  ⟨by decide,
    (C8_after_header_frame [] 0 ["foo".toList] ["bar".toList]
      "This job update will:".toList (by decide)).2.2⟩

/-- C9: the final `Dirty` is true exactly when some line begins with
`remove instances:` or `add instances:`, or some line before the first header
line begins with none of the three range markers; the empty input gives
`Dirty` false; an input made only of `update instances:` lines gives `Dirty`
false and an empty `Diff`. -/
theorem C9_dirty_iff (job : Str) (jobindex : Int) (lines : List Str) :
    ((classify job jobindex lines).Dirty = true ↔
        (∃ l ∈ lines, HasPrefix l removeLit = true ∨ HasPrefix l addLit = true) ∨
          (∃ l ∈ preamble lines, HasPrefix l removeLit = false ∧
            HasPrefix l addLit = false ∧ HasPrefix l updateLit = false)) ∧
      (classify job jobindex []).Dirty = false ∧
      ((∀ l ∈ lines, HasPrefix l updateLit = true) →
        (classify job jobindex lines).Dirty = false ∧
          (classify job jobindex lines).Diff = []) := by
  have hcap : (captured lines).isEmpty = false ↔
      ∃ l ∈ preamble lines, HasPrefix l removeLit = false ∧
        HasPrefix l addLit = false ∧ HasPrefix l updateLit = false := by
    constructor
    · intro hne
      cases hc : captured lines with
      | nil => simp [hc] at hne
      | cons x xs =>
        have hx : x ∈ captured lines := by rw [hc]; exact List.mem_cons_self _ _
        obtain ⟨hx1, hx2⟩ := List.mem_filter.1 hx
        refine ⟨x, hx1, ?_⟩
        simpa [hasRangeMarker, and_assoc] using hx2
    · rintro ⟨l, hl, h1, h2, h3⟩
      have hx : l ∈ captured lines :=
        List.mem_filter.2 ⟨hl, by simp [hasRangeMarker, h1, h2, h3]⟩
      cases hc : captured lines with
      | nil => rw [hc] at hx; exact absurd hx (List.not_mem_nil _)
      | cons x xs => rfl
  refine ⟨?_, rfl, ?_⟩
  · rw [classify_Dirty, Bool.or_eq_true, List.any_eq_true, Bool.not_eq_true', hcap]
    simp only [Bool.or_eq_true]
  · intro hall
    have hc : captured lines = [] := by
      unfold captured
      rw [List.filter_eq_nil_iff]
      intro l hl
      have hl' : l ∈ lines := (List.takeWhile_sublist _).subset hl
      simp [hasRangeMarker_of_update (hall l hl')]
    refine ⟨?_, by rw [classify_Diff, hc]⟩
    rw [classify_Dirty, hc]
    simp only [List.isEmpty_nil, Bool.not_true, Bool.or_false]
    rw [Bool.eq_false_iff]
    intro hany
    obtain ⟨l, hl, hp⟩ := List.any_eq_true.1 hany
    have hu := update_excl (hall l hl)
    simp [hu.2.1, hu.2.2] at hp

/-- C9 at the two lines `update instances: [0]`, `update instances: [1]`. -/
theorem C9_dirty_iff_witness :
    (classify [] 0 ["update instances: [0]".toList, "update instances: [1]".toList]).Dirty
        = false ∧
      (classify [] 0 ["update instances: [0]".toList, "update instances: [1]".toList]).Diff
        = [] :=
  (C9_dirty_iff [] 0 ["update instances: [0]".toList, "update instances: [1]".toList]).2.2
    (by decide)

/-- C10: each of `Remove`, `Add` and `Update` is decided by the last line of
the input that begins with its marker, wherever the header stands: it is the
leftmost bracket group of that line, empty when that line has no bracket
group, and empty when no line begins with the marker; deleting the header
lines from the input changes none of the three. -/
theorem C10_last_marker_decides (job : Str) (jobindex : Int) (lines : List Str) :
    DecidedByLast removeLit lines (classify job jobindex lines).Remove ∧
      DecidedByLast addLit lines (classify job jobindex lines).Add ∧
      DecidedByLast updateLit lines (classify job jobindex lines).Update ∧
      (classify job jobindex (lines.filter (fun l => !HasPrefix l headerLit))).Remove =
        (classify job jobindex lines).Remove ∧
      (classify job jobindex (lines.filter (fun l => !HasPrefix l headerLit))).Add =
        (classify job jobindex lines).Add ∧
      (classify job jobindex (lines.filter (fun l => !HasPrefix l headerLit))).Update =
        (classify job jobindex lines).Update := by
  have hR : ∀ ls, (classify job jobindex ls).Remove = rangeOf [] (lastWith removeLit ls) :=
    fun ls => scanFrom_Remove _ ls
  have hA : ∀ ls, (classify job jobindex ls).Add = rangeOf [] (lastWith addLit ls) :=
    fun ls => scanFrom_Add _ ls
  have hU : ∀ ls, (classify job jobindex ls).Update = rangeOf [] (lastWith updateLit ls) :=
    fun ls => scanFrom_Update _ ls
  refine ⟨?_, ?_, ?_, ?_, ?_, ?_⟩
  · rw [hR]
    exact DecidedByLast_rangeOf _ _
  · rw [hA]
    exact DecidedByLast_rangeOf _ _
  · rw [hU]
    exact DecidedByLast_rangeOf _ _
  · rw [hR, hR, lastWith_filter_header (fun l hl => (remove_excl hl).1)]
  · rw [hA, hA, lastWith_filter_header (fun l hl => (add_excl hl).1)]
  · rw [hU, hU, lastWith_filter_header (fun l hl => (update_excl hl).1)]

/-- C10 at the lines `remove instances: [0]`, `This job update will:`,
`remove instances: [1-2] [9]`, `with diff:`: the third line decides `Remove`. -/
theorem C10_last_marker_decides_witness :
    RangeSpec "remove instances: [1-2] [9]".toList
      (classify [] 0 ["remove instances: [0]".toList, "This job update will:".toList,
        "remove instances: [1-2] [9]".toList, "with diff:".toList]).Remove :=
  (C10_last_marker_decides [] 0 ["remove instances: [0]".toList,
      "This job update will:".toList, "remove instances: [1-2] [9]".toList,
      "with diff:".toList]).1.1
    ["remove instances: [0]".toList, "This job update will:".toList]
    "remove instances: [1-2] [9]".toList ["with diff:".toList] rfl (by decide) (by decide)

end Aurorapa
